import Mathlib

/-!
Shallow embedding of the cache/versioning and remote-resolver core of the
`sync-rs` CLI (`src/cache.rs`, `src/config.rs`, `src/main.rs`), together with
theorems settling the specification claims about it.

Modelling conventions:
* `HashMap<String, Vec<RemoteEntry>>` is modelled as an association list with
  unique keys (`RemoteMap`); `HashMap::insert` is `mapInsert` (replace in
  place, or append a fresh key).
* JSON values are modelled by the inductive `Json`; serde derive semantics
  (required fields, `serde(default)` fields, unknown fields ignored) are
  reproduced by the `fromJson` decoders.
* `usize` arithmetic uses `Nat` with explicit wrapping modulo `2 ^ 64`
  where the source can overflow (release-build semantics).
* Strings that the code slices or scans are handled through their character
  lists so every definition evaluates by kernel reduction.
-/

namespace SyncRs

/-- Struct `RemoteEntry` (`src/config.rs` lines 5-16, plus the `ignore_patterns`
field that `src/cache.rs` line 88 initializes; `main.rs` has an older copy of
the struct without `preferred`/`ignore_patterns`, whose serde defaults are
`false` and `[]`). -/
structure RemoteEntry where
  name : String
  remote_host : String
  remote_dir : String
  override_paths : List String
  post_sync_command : Option String
  preferred : Bool
  ignore_patterns : List String
  deriving Repr, DecidableEq

/-- Struct `LegacyCacheEntry` (`src/cache.rs` lines 18-26). -/
structure LegacyCacheEntry where
  remote_host : String
  remote_dir : String
  override_paths : List String
  post_sync_command : Option String
  deriving Repr, DecidableEq

/-- Type `RemoteMap = HashMap<String, Vec<RemoteEntry>>` (`src/cache.rs` line 9),
as an association list with unique keys. -/
abbrev RemoteMap := List (String × List RemoteEntry)

/-- Type `LegacyCache = HashMap<String, LegacyCacheEntry>` (`src/cache.rs` line 28). -/
abbrev LegacyCache := List (String × LegacyCacheEntry)

/-- Operation `HashMap::insert`: replace the value of an existing key in place,
otherwise add the new binding. -/
def mapInsert (m : RemoteMap) (key : String) (v : List RemoteEntry) : RemoteMap :=
  if m.any (fun p => p.1 == key) then
    m.map (fun p => if p.1 == key then (key, v) else p)
  else
    m ++ [(key, v)]

/-- Rust `char`-for-`&str` replace, as used in `dir.replace('/', "_")`. -/
def replaceChar (c r : Char) (cs : List Char) : List Char :=
  cs.map (fun x => if x = c then r else x)

/-- The synthesized default entry name
`format!("{}_{}", host, dir.replace('/', "_"))`
(`src/cache.rs` lines 76-80, `src/main.rs` line 108). -/
def default_entry_name (host dir : String) : String :=
  host ++ "_" ++ String.mk (replaceChar '/' '_' dir.toList)

/-- Function `LegacyMigrator::convert_legacy_cache`, per-entry part
(`src/cache.rs` lines 75-89). -/
def convertLegacyEntry (entry : LegacyCacheEntry) : RemoteEntry :=
  { name := default_entry_name entry.remote_host entry.remote_dir
    remote_host := entry.remote_host
    remote_dir := entry.remote_dir
    override_paths := entry.override_paths
    post_sync_command := entry.post_sync_command
    preferred := false
    ignore_patterns := [] }

/-- Function `LegacyMigrator::convert_legacy_cache` (`src/cache.rs` lines 72-95):
fold over the legacy map, inserting a one-element entry list per directory. -/
def convert_legacy_cache (legacy : LegacyCache) : RemoteMap :=
  legacy.foldl (fun acc p => mapInsert acc p.1 [convertLegacyEntry p.2]) []

/-! ### JSON values and serde-style decoding -/

/-- JSON values as produced/consumed by `serde_json` (numbers never occur in
this schema and are omitted). -/
inductive Json where
  | null
  | bool (b : Bool)
  | str (s : String)
  | arr (elems : List Json)
  | obj (fields : List (String × Json))

/-- Decode a JSON string. -/
def Json.asStr : Json → Option String
  | .str s => some s
  | _ => none

/-- Decode a JSON boolean. -/
def Json.asBool : Json → Option Bool
  | .bool b => some b
  | _ => none

/-- Element-wise sequence decoding, failing fast as serde does. -/
def optionTraverse {α β : Type} (f : α → Option β) : List α → Option (List β)
  | [] => some []
  | a :: l => do
    let b ← f a
    let bs ← optionTraverse f l
    pure (b :: bs)

/-- Decode a `Vec<String>`. -/
def Json.asStrList : Json → Option (List String)
  | .arr xs => optionTraverse Json.asStr xs
  | _ => none

/-- Decode an `Option<String>` (`null` is `None`). -/
def Json.asOptStr : Json → Option (Option String)
  | .null => some none
  | .str s => some (some s)
  | _ => none

/-- Field lookup in a JSON object (first occurrence, as serde reads it). -/
def Json.lookup (key : String) : Json → Option Json
  | .obj fields => fields.lookup key
  | _ => none

/-- A serde struct field without `serde(default)`: must be present and decode. -/
def decodeReq {α : Type} (j : Json) (key : String) (dec : Json → Option α) : Option α :=
  match j.lookup key with
  | none => none
  | some v => dec v

/-- A `serde(default)` struct field: absent means the default, present must
decode. -/
def decodeDfl {α : Type} (j : Json) (key : String) (dec : Json → Option α) (dflt : α) :
    Option α :=
  match j.lookup key with
  | none => some dflt
  | some v => dec v

/-- serde `Serialize` for `RemoteEntry` (declaration field order). -/
def RemoteEntry.toJson (e : RemoteEntry) : Json :=
  .obj [("name", .str e.name),
        ("remote_host", .str e.remote_host),
        ("remote_dir", .str e.remote_dir),
        ("override_paths", .arr (e.override_paths.map Json.str)),
        ("post_sync_command",
          match e.post_sync_command with
          | none => .null
          | some s => .str s),
        ("preferred", .bool e.preferred),
        ("ignore_patterns", .arr (e.ignore_patterns.map Json.str))]

/-- serde `Deserialize` for `RemoteEntry`: `name`, `remote_host`, `remote_dir`
required; the rest are `serde(default)`; unknown fields ignored. -/
def RemoteEntry.fromJson (j : Json) : Option RemoteEntry := do
  let nm ← decodeReq j "name" Json.asStr
  let host ← decodeReq j "remote_host" Json.asStr
  let dir ← decodeReq j "remote_dir" Json.asStr
  let ops ← decodeDfl j "override_paths" Json.asStrList []
  let psc ← decodeDfl j "post_sync_command" Json.asOptStr none
  let pref ← decodeDfl j "preferred" Json.asBool false
  let ign ← decodeDfl j "ignore_patterns" Json.asStrList []
  pure ⟨nm, host, dir, ops, psc, pref, ign⟩

/-- serde `Deserialize` for `LegacyCacheEntry` (`src/cache.rs` lines 18-26):
`remote_host`, `remote_dir` required, the rest `serde(default)`. -/
def LegacyCacheEntry.fromJson (j : Json) : Option LegacyCacheEntry := do
  let host ← decodeReq j "remote_host" Json.asStr
  let dir ← decodeReq j "remote_dir" Json.asStr
  let ops ← decodeDfl j "override_paths" Json.asStrList []
  let psc ← decodeDfl j "post_sync_command" Json.asOptStr none
  pure ⟨host, dir, ops, psc⟩

/-- Decode a `Vec<RemoteEntry>`. -/
def decodeEntryList (j : Json) : Option (List RemoteEntry) :=
  match j with
  | .arr xs => optionTraverse RemoteEntry.fromJson xs
  | _ => none

/-- Decode a `RemoteMap` (JSON object of entry lists). -/
def decodeRemoteMap (j : Json) : Option RemoteMap :=
  match j with
  | .obj fields =>
      optionTraverse (fun p => (decodeEntryList p.2).map (fun es => (p.1, es))) fields
  | _ => none

/-- Encode a `RemoteMap`. -/
def encodeRemoteMap (m : RemoteMap) : Json :=
  .obj (m.map (fun p => (p.1, Json.arr (p.2.map RemoteEntry.toJson))))

/-- Struct `VersionedCache` (`src/cache.rs` lines 11-15). -/
structure VersionedCache where
  version : String
  entries : RemoteMap

/-- serde `Deserialize` for `VersionedCache`: both fields required. -/
def VersionedCache.fromJson (j : Json) : Option VersionedCache := do
  let v ← decodeReq j "version" Json.asStr
  let es ← decodeReq j "entries" decodeRemoteMap
  pure ⟨v, es⟩

/-- serde `Serialize` for `VersionedCache`. -/
def VersionedCache.toJson (c : VersionedCache) : Json :=
  .obj [("version", .str c.version), ("entries", encodeRemoteMap c.entries)]

/-- serde `Deserialize` for `LegacyCache` (a JSON object each of whose values
is a legacy entry); this is exactly `LegacyMigrator::can_migrate`'s parse
(`src/cache.rs` lines 45-48). -/
def decodeLegacyCache (j : Json) : Option LegacyCache :=
  match j with
  | .obj fields =>
      optionTraverse (fun p => (LegacyCacheEntry.fromJson p.2).map (fun e => (p.1, e))) fields
  | _ => none

/-! ### Migration engine: `read_cache` / `save_cache` -/

/-- The observable content of the cache file: absent, present but not valid
JSON, or a JSON document. -/
inductive FileContent where
  | absent
  | invalid
  | json (j : Json)

/-- Function `MigrationManager::read_cache` (`src/cache.rs` lines 121-157) at the JSON
level.  The `Bool` in the result records whether the
"Could not migrate cache" warning was emitted; `backupOk` abstracts whether
the `fs::copy` backup inside `LegacyMigrator::migrate` succeeds.  The
versioned branch returns the parsed entries whether or not the embedded
version equals `current_version` (lines 133-143). -/
def read_cache (current_version : String) (backupOk : Bool) (file : FileContent) :
    Except String (RemoteMap × Bool) :=
  match file with
  | .absent => .ok ([], false)
  | .invalid => .ok ([], true)
  | .json j =>
    match VersionedCache.fromJson j with
    | some vc =>
        if vc.version = current_version then .ok (vc.entries, false)
        else .ok (vc.entries, false)
    | none =>
      match decodeLegacyCache j with
      | some lc =>
          if backupOk then .ok (convert_legacy_cache lc, false)
          else .error "Failed to backup legacy cache file"
      | none => .ok ([], true)

/-- Function `MigrationManager::save_cache` (`src/cache.rs` lines 159-167): the JSON
document written to the cache file. -/
def save_cache (current_version : String) (entries : RemoteMap) : Json :=
  VersionedCache.toJson ⟨current_version, entries⟩

/-! ### File-system model for the migration backup -/

/-- Raw file bytes, opaque to the model. -/
abbrev Bytes := List Nat

/-- A file system: path contents by path. -/
abbrev FileSystem := String → Option Bytes

/-- Split a character list at the last occurrence of `sep`:
`splitLast sep l = some (a, b)` iff `l = a ++ sep :: b` and `sep ∉ b`. -/
def splitLast (sep : Char) : List Char → Option (List Char × List Char)
  | [] => none
  | c :: rest =>
    match splitLast sep rest with
    | some (a, b) => some (c :: a, b)
    | none => if c = sep then some ([], rest) else none

/-- Method `Path::with_extension`: replace the extension of the final path
component (a file name that is only a leading-dot name keeps it intact). -/
def withExtension (p ext : String) : String :=
  let cs := p.toList
  let (dir, file) :=
    match splitLast '/' cs with
    | some (d, f) => (d ++ ['/'], f)
    | none => (([] : List Char), cs)
  let stem :=
    match splitLast '.' file with
    | some ([], _) => file
    | some (s, _) => s
    | none => file
  String.mk (dir ++ stem ++ '.' :: ext.toList)

/-- Function `LegacyMigrator::migrate` (`src/cache.rs` lines 50-68) with its
file-system effect: parse the data as a legacy cache, then `fs::copy` the
cache file to `cache_path.with_extension("json.bak")` — the pass performs no
other file-system operation (in particular it never writes `cache_path`
itself, and copies to the backup path exactly once). -/
def LegacyMigrator.migrate (j : Json) (cache_path : String) (fs : FileSystem) :
    Except String (RemoteMap × FileSystem) :=
  match decodeLegacyCache j with
  | none => .error "Failed to parse legacy cache"
  | some lc =>
    match fs cache_path with
    | none => .error "Failed to backup legacy cache file"
    | some data =>
        .ok (convert_legacy_cache lc,
             fun p => if p = withExtension cache_path "json.bak" then some data else fs p)

/-! ### Remote resolver (`src/config.rs`, `src/main.rs`) -/

/-- Rust `usize::from_str`: optional leading sign, then one or more ASCII
digits, value at most `usize::MAX = 2 ^ 64 - 1`. -/
def rust_parse_usize (cs : List Char) : Option Nat :=
  let body := match cs with
    | '+' :: rest => rest
    | other => other
  if body = [] then none
  else if body.all Char.isDigit then
    let v := body.foldl (fun a c => a * 10 + (c.toNat - 48)) 0
    if v < 2 ^ 64 then some v else none
  else none

/-- Rust `str::trim`: drop whitespace from both ends. -/
def trimChars (cs : List Char) : List Char :=
  ((cs.dropWhile Char.isWhitespace).reverse.dropWhile Char.isWhitespace).reverse

/-- Function `generate_unique_name` (`src/config.rs` lines 113-140).  The base name is
the host up to the first `:`; when some entry already carries the base name,
a fold computes `highest_index` exactly as the source loop does (note the
plain assignment `highest_index = 1` on a bare base-name match). -/
def generate_unique_name (host : String) (cache : RemoteMap) (current_dir : String) :
    String :=
  let base_name := String.mk (host.toList.takeWhile (fun c => c ≠ ':'))
  match cache.lookup current_dir with
  | none => base_name
  | some entries =>
    if entries.all (fun e => e.name ≠ base_name) then base_name
    else
      let highest := entries.foldl
        (fun highest_index e =>
          if e.name = base_name then 1
          else if (base_name.toList ++ ['_']).isPrefixOf e.name.toList then
            match rust_parse_usize (e.name.toList.drop (base_name.toList.length + 1)) with
            | some idx => max highest_index (idx + 1)
            | none => highest_index
          else highest_index)
        0
      base_name ++ "_" ++ toString highest

/-- Result of one resolver branch: the entry acted on, the directory's new
entry list, and whether `save_cache` was called. -/
structure ResolveOutcome where
  entry : RemoteEntry
  entries : List RemoteEntry
  saved : Bool
  deriving Repr, DecidableEq

/-- The entry the explicit host/dir branch builds from the CLI arguments
(`src/main.rs` lines 105-116): name from the CLI or the synthesized default;
the struct in this snapshot has no `preferred`/`ignore_patterns` fields, so
under the cache schema's serde defaults they are `false` / `[]`. -/
def mkCliEntry (h d : String) (cli_name : Option String)
    (override_path : List String) (post_command : Option String) : RemoteEntry :=
  { name := cli_name.getD (default_entry_name h d)
    remote_host := h
    remote_dir := d
    override_paths := override_path
    post_sync_command := post_command
    preferred := false
    ignore_patterns := [] }

/-- The explicit host/dir resolver branch (`src/main.rs` lines 101-127):
build the new entry, then replace in place at the first position whose name
matches, else append; always saved. -/
def explicit_branch (h d : String) (cli_name : Option String)
    (override_path : List String) (post_command : Option String)
    (entries : List RemoteEntry) : ResolveOutcome :=
  let entry := mkCliEntry h d cli_name override_path post_command
  match entries.findIdx? (fun e => e.name == entry.name) with
  | some idx => { entry := entry, entries := entries.set idx entry, saved := true }
  | none => { entry := entry, entries := entries ++ [entry], saved := true }

/-- The single-existing-entry resolver branch (`src/main.rs` lines 151-169):
a non-empty `--override-path` list overwrites `override_paths`, a present
`--post-command` overwrites `post_sync_command`, nothing else changes; the
same assignments are applied to the stored entry (index 0) and the store is
saved. -/
def single_entry_branch (override_path : List String) (post_command : Option String)
    (e : RemoteEntry) : ResolveOutcome :=
  let e1 := if override_path.isEmpty then e else { e with override_paths := override_path }
  let e2 := match post_command with
    | some _ => { e1 with post_sync_command := post_command }
    | none => e1
  { entry := e2, entries := [e2], saved := true }

/-- Function `remove_remote` (`src/config.rs` lines 92-110): fail when the directory
has no list at all; retain the entries whose name differs; fail when nothing
was removed. -/
def remove_remote (cache : RemoteMap) (current_dir nm : String) :
    Except String RemoteMap :=
  match cache.lookup current_dir with
  | none => .error "No remotes found for this directory"
  | some entries =>
    let remaining := entries.filter (fun e => e.name ≠ nm)
    if remaining.length = entries.length then
      .error "Remote with the given name not found"
    else
      .ok (mapInsert cache current_dir remaining)

/-- The remove branch of `main` (`src/main.rs` lines 87-92): on success the
new store is saved over the cache file; on failure the error propagates
before `save_cache`, so the persisted file is untouched. -/
def remove_branch (current_version : String) (disk : FileContent) (cache : RemoteMap)
    (current_dir nm : String) : FileContent × Except String RemoteMap :=
  match remove_remote cache current_dir nm with
  | .error e => (disk, .error e)
  | .ok m => (.json (save_cache current_version m), .ok m)

/-- Function `select_remote` (`src/config.rs` lines 36-65): trim the input line, parse
it as `usize`, subtract 1 (wrapping modulo `2 ^ 64`, the release-build
semantics of `usize` subtraction), range-check, and return the selected
entry's name. -/
def select_remote (entries : List RemoteEntry) (input : String) : Except String String :=
  match rust_parse_usize (trimChars input.toList) with
  | none => .error "Invalid selection"
  | some n =>
    let idx := (n + (2 ^ 64 - 1)) % 2 ^ 64
    if h : idx < entries.length then .ok (entries.get ⟨idx, h⟩).name
    else .error "Selection out of range"

/-- Modelled from the spec: no operation under `src/` ever sets `preferred`
(the resolver in `main.rs` predates the field, and `config.rs` only declares
it), so the preferred-setting resolver operation is modelled from the spec:
"setting it on one entry must clear it on all siblings in the same directory"
and "clears sibling `preferred` flags if `preferred` is being set, replaces
the entry in the list by position" — clear every entry's flag, then set it on
the entry at position `i`. -/
def set_preferred (entries : List RemoteEntry) (i : Nat) : List RemoteEntry :=
  let cleared := entries.map (fun e => { e with preferred := false })
  match cleared[i]? with
  | some e => cleared.set i { e with preferred := true }
  | none => cleared

/-- Test fixture: an entry with a given name and fixed remaining fields. -/
def sampleEntry (nm : String) : RemoteEntry :=
  { name := nm, remote_host := "a", remote_dir := "x", override_paths := [],
    post_sync_command := none, preferred := false, ignore_patterns := [] }

/-! ### Helper lemmas -/

theorem lookup_map_replace_ne (m : RemoteMap) (k k' : String) (v : List RemoteEntry)
    (hne : k' ≠ k) :
    (m.map (fun p => if p.1 == k then (k, v) else p)).lookup k' = m.lookup k' := by
  induction m with
  | nil => rfl
  | cons p rest ih =>
    obtain ⟨pk, pv⟩ := p
    by_cases hp : pk = k
    · subst hp
      have h1 : (k' == pk) = false := by simpa using hne
      simp only [List.map_cons, beq_self_eq_true, if_pos, List.lookup_cons, h1]
      exact ih
    · rw [List.map_cons,
        show (if ((pk, pv).1 == k) = true then (k, v) else (pk, pv)) = (pk, pv)
          from by simp [hp],
        List.lookup_cons, List.lookup_cons]
      cases hk : (k' == pk) with
      | true => rfl
      | false => exact ih

theorem lookup_map_replace_self (m : RemoteMap) (k : String) (v : List RemoteEntry)
    (hany : m.any (fun p => p.1 == k) = true) :
    (m.map (fun p => if p.1 == k then (k, v) else p)).lookup k = some v := by
  induction m with
  | nil => simp at hany
  | cons p rest ih =>
    obtain ⟨pk, pv⟩ := p
    by_cases hp : pk = k
    · subst hp
      simp only [List.map_cons, beq_self_eq_true, if_pos, List.lookup_cons]
    · have hp' : ((pk, pv).1 == k) = false := by simpa using hp
      have hrest : rest.any (fun p => p.1 == k) = true := by
        simpa [List.any_cons, hp'] using hany
      have hk : (k == pk) = false := by simpa using Ne.symm hp
      rw [List.map_cons,
        show (if ((pk, pv).1 == k) = true then (k, v) else (pk, pv)) = (pk, pv)
          from by simp [hp],
        List.lookup_cons]
      simp only [hk]
      exact ih hrest

theorem lookup_mapInsert (m : RemoteMap) (k k' : String) (v : List RemoteEntry) :
    (mapInsert m k v).lookup k' = if k' = k then some v else m.lookup k' := by
  unfold mapInsert
  by_cases hany : m.any (fun p => p.1 == k) = true
  · rw [if_pos hany]
    by_cases hk : k' = k
    · subst hk; rw [if_pos rfl, lookup_map_replace_self m k' v hany]
    · rw [if_neg hk, lookup_map_replace_ne m k k' v hk]
  · rw [if_neg hany]
    have hnone : m.lookup k = none := by
      rw [List.lookup_eq_none_iff]
      intro p hp
      by_contra hc
      simp only [bne_iff_ne, ne_eq, Decidable.not_not] at hc
      exact hany (List.any_eq_true.mpr ⟨p, hp, by simp [hc]⟩)
    by_cases hk : k' = k
    · subst hk; simp [List.lookup_append, hnone]
    · have hkb : (k' == k) = false := by simpa using hk
      have : ([(k, v)].lookup k') = none := by simp [List.lookup_cons, hkb]
      simp [List.lookup_append, this, hk]

theorem convert_foldl_untouched (lc : LegacyCache) (acc : RemoteMap) (d : String)
    (hd : d ∉ lc.map Prod.fst) :
    (lc.foldl (fun acc p => mapInsert acc p.1 [convertLegacyEntry p.2]) acc).lookup d
      = acc.lookup d := by
  induction lc generalizing acc with
  | nil => rfl
  | cons p rest ih =>
    simp only [List.map_cons, List.mem_cons, not_or] at hd
    rw [List.foldl_cons, ih _ hd.2, lookup_mapInsert, if_neg hd.1]

theorem convert_foldl_lookup (lc : LegacyCache) (acc : RemoteMap) (d : String)
    (e : LegacyCacheEntry) (hnd : (lc.map Prod.fst).Nodup) (hm : (d, e) ∈ lc) :
    (lc.foldl (fun acc p => mapInsert acc p.1 [convertLegacyEntry p.2]) acc).lookup d
      = some [convertLegacyEntry e] := by
  induction lc generalizing acc with
  | nil => cases hm
  | cons p rest ih =>
    rw [List.map_cons, List.nodup_cons] at hnd
    rcases List.mem_cons.mp hm with heq | hmem
    · subst heq
      rw [List.foldl_cons, convert_foldl_untouched rest _ d hnd.1,
        lookup_mapInsert, if_pos rfl]
    · exact ih _ hnd.2 hmem

/-! ### Claim theorems -/

/-- C1: migrating a legacy cache turns each directory's single entry into a
one-element list whose entry preserves `remote_host`, `remote_dir`,
`override_paths` and `post_sync_command`, has `preferred = false` and
`ignore_patterns = []`, and is named `host ++ "_" ++ dir` with every `/`
replaced by `_`. -/
theorem legacy_migration_preserves_fields (lc : LegacyCache)
    (hnd : (lc.map Prod.fst).Nodup) (d : String) (e : LegacyCacheEntry)
    (hm : (d, e) ∈ lc) :
    (convert_legacy_cache lc).lookup d =
      some [{ name := e.remote_host ++ "_" ++ String.mk (replaceChar '/' '_' e.remote_dir.toList),
              remote_host := e.remote_host,
              remote_dir := e.remote_dir,
              override_paths := e.override_paths,
              post_sync_command := e.post_sync_command,
              preferred := false,
              ignore_patterns := [] }] :=
  convert_foldl_lookup lc [] d e hnd hm

/-- Witness for C1 at a concrete legacy cache. -/
theorem legacy_migration_preserves_fields_witness :
    (convert_legacy_cache [("d", ⟨"h", "a/b", ["p"], some "c"⟩)]).lookup "d" =
      some [{ name := "h_a_b", remote_host := "h", remote_dir := "a/b",
              override_paths := ["p"], post_sync_command := some "c",
              preferred := false, ignore_patterns := [] }] := by
  have h := legacy_migration_preserves_fields [("d", ⟨"h", "a/b", ["p"], some "c"⟩)]
    (by simp) "d" ⟨"h", "a/b", ["p"], some "c"⟩ (by simp)
  exact h.trans (by decide)

/-- C4 (code bug): `generate_unique_name` does return `"a_4"` for existing
names `a, a_1, a_3` in that order, but because the loop resets
`highest_index` to `1` (plain assignment) when it meets the bare base name,
the existing order `a_1, a` makes it return `"a_1"`, which collides with an
existing entry's name. -/
theorem generate_unique_name_collision :
    generate_unique_name "a" [("/d", [sampleEntry "a", sampleEntry "a_1", sampleEntry "a_3"])] "/d"
        = "a_4" ∧
    generate_unique_name "a" [("/d", [sampleEntry "a_1", sampleEntry "a"])] "/d" = "a_1" ∧
    "a_1" ∈ ([sampleEntry "a_1", sampleEntry "a"]).map RemoteEntry.name := by
  decide

/-- C2: after the preferred-setting resolver operation on position `i` of a
directory with `N` entries, exactly one entry (the one at `i`) has
`preferred = true` and the other `N - 1` have `preferred = false`, regardless
of the prior flags; in particular no two entries are both preferred. -/
theorem set_preferred_exactly_one (entries : List RemoteEntry) (i : Nat)
    (hi : i < entries.length) :
    (set_preferred entries i).length = entries.length ∧
    (set_preferred entries i).countP (fun e => e.preferred) = 1 ∧
    ∀ j (hj : j < (set_preferred entries i).length),
      (((set_preferred entries i).get ⟨j, hj⟩).preferred = true ↔ j = i) := by
  have hclear : ∀ l : List RemoteEntry,
      (l.map (fun e => { e with preferred := false })).countP (fun e => e.preferred) = 0 := by
    intro l
    induction l with
    | nil => rfl
    | cons a l ih => simp [List.countP_cons, ih]
  have hgm : (entries.map (fun e => { e with preferred := false }))[i]? =
      some { entries[i] with preferred := false } := by
    rw [List.getElem?_map, List.getElem?_eq_getElem hi]
    rfl
  have hset : set_preferred entries i =
      (entries.map (fun e => { e with preferred := false })).set i
        { { entries[i] with preferred := false } with preferred := true } := by
    simp only [set_preferred, hgm]
  have hilen : i < (entries.map (fun e => { e with preferred := false })).length := by
    simpa using hi
  refine ⟨?_, ?_, ?_⟩
  · rw [hset]; simp
  · rw [hset, List.set_eq_take_append_cons_drop, if_pos hilen,
      List.countP_append, List.countP_cons]
    have h1 : ((entries.map (fun e => { e with preferred := false })).take i).countP
        (fun e : RemoteEntry => e.preferred) = 0 :=
      Nat.le_zero.mp (le_of_le_of_eq
        ((List.take_sublist i _).countP_le (fun e : RemoteEntry => e.preferred))
        (hclear entries))
    have h2 : ((entries.map (fun e => { e with preferred := false })).drop (i + 1)).countP
        (fun e : RemoteEntry => e.preferred) = 0 :=
      Nat.le_zero.mp (le_of_le_of_eq
        ((List.drop_sublist (i + 1) _).countP_le (fun e : RemoteEntry => e.preferred))
        (hclear entries))
    simp [h1, h2]
  · intro j hj
    rw [hset] at hj
    simp only [List.get_eq_getElem, hset]
    by_cases hji : j = i
    · subst hji
      rw [List.getElem_set_self (by simpa using hj)]
      simp
    · rw [List.getElem_set_ne (Ne.symm hji) (by simpa using hj)]
      simp [hji]

/-- Witness for C2 at a concrete two-entry directory where both flags were
previously set. -/
theorem set_preferred_exactly_one_witness :
    (set_preferred [{ sampleEntry "a" with preferred := true },
        { sampleEntry "b" with preferred := true }] 1).countP (fun e => e.preferred) = 1 := by
  have h := set_preferred_exactly_one
    [{ sampleEntry "a" with preferred := true }, { sampleEntry "b" with preferred := true }] 1
    (by decide)
  exact h.2.1

theorem mapM_asStr (l : List String) :
    optionTraverse Json.asStr (l.map Json.str) = some l := by
  induction l with
  | nil => rfl
  | cons a l ih => simp [optionTraverse, ih, Json.asStr]

theorem fromJson_toJson (e : RemoteEntry) : RemoteEntry.fromJson e.toJson = some e := by
  obtain ⟨nm, host, dir, ops, psc, pref, ign⟩ := e
  cases psc <;>
    simp [RemoteEntry.toJson, RemoteEntry.fromJson, decodeReq, decodeDfl, Json.lookup,
      List.lookup_cons, Json.asStr, Json.asBool, Json.asOptStr, Json.asStrList, mapM_asStr]

theorem entryList_roundtrip (es : List RemoteEntry) :
    decodeEntryList (.arr (es.map RemoteEntry.toJson)) = some es := by
  induction es with
  | nil => rfl
  | cons e es ih =>
    simp only [decodeEntryList] at ih ⊢
    simp [optionTraverse, fromJson_toJson, ih]

theorem remoteMap_roundtrip (m : RemoteMap) :
    decodeRemoteMap (encodeRemoteMap m) = some m := by
  induction m with
  | nil => rfl
  | cons p rest ih =>
    simp only [decodeRemoteMap, encodeRemoteMap] at ih ⊢
    simp [optionTraverse, entryList_roundtrip, ih]

theorem versioned_roundtrip (v : String) (m : RemoteMap) :
    VersionedCache.fromJson (save_cache v m) = some ⟨v, m⟩ := by
  simp [save_cache, VersionedCache.toJson, VersionedCache.fromJson, decodeReq,
    Json.lookup, List.lookup_cons, Json.asStr, remoteMap_roundtrip]

theorem read_save (v : String) (b : Bool) (m : RemoteMap) :
    read_cache v b (.json (save_cache v m)) = .ok (m, false) := by
  simp [read_cache, versioned_roundtrip]

/-- C3: saving a store with `save_cache` and re-reading the written document
with `read_cache` under the same program version returns the identical store
(same directory keys, same entry sequences, all fields preserved), with no
warning. -/
theorem save_then_read_roundtrip (v : String) (b : Bool) (m : RemoteMap) :
    read_cache v b (.json (save_cache v m)) = .ok (m, false) :=
  read_save v b m

/-- C5: `read_cache` never fails on an absent or unrecognized cache file: a
missing file yields the empty store with no warning, bytes that are not JSON
yield the empty store with the warning, and a JSON document that neither
parses as the versioned envelope nor is accepted by the legacy migrator's
`can_migrate` parse yields the empty store with the warning — never an
error. -/
theorem read_cache_never_fails (v : String) (b : Bool) (j : Json)
    (hv : VersionedCache.fromJson j = none) (hl : decodeLegacyCache j = none) :
    read_cache v b .absent = .ok ([], false) ∧
    read_cache v b .invalid = .ok ([], true) ∧
    read_cache v b (.json j) = .ok ([], true) := by
  refine ⟨rfl, rfl, ?_⟩
  simp [read_cache, hv, hl]

/-- Witness for C5 at a concrete unrecognized document. -/
theorem read_cache_never_fails_witness :
    read_cache "0.1.0" false .absent = .ok ([], false) ∧
    read_cache "0.1.0" false .invalid = .ok ([], true) ∧
    read_cache "0.1.0" false (.json (.str "garbage")) = .ok ([], true) :=
  read_cache_never_fails "0.1.0" false (.str "garbage") rfl rfl

/-- C6: a successful legacy migration copies the original cache file
byte-for-byte to the sibling `.json.bak` path, performs no other
file-system write during the pass (so the backup is written before any
overwrite of the cache file, whose bytes are still the originals
afterwards), and copies to the backup path exactly once. -/
theorem migrate_backs_up_original (j : Json) (lc : LegacyCache) (cache_path : String)
    (fs : FileSystem) (data : Bytes)
    (hl : decodeLegacyCache j = some lc)
    (hf : fs cache_path = some data)
    (hne : withExtension cache_path "json.bak" ≠ cache_path) :
    ∃ fs', LegacyMigrator.migrate j cache_path fs = .ok (convert_legacy_cache lc, fs') ∧
      fs' (withExtension cache_path "json.bak") = some data ∧
      fs' cache_path = some data := by
  refine ⟨fun p => if p = withExtension cache_path "json.bak" then some data else fs p,
    ?_, ?_, ?_⟩
  · simp [LegacyMigrator.migrate, hl, hf]
  · simp
  · simp [Ne.symm hne, hf]

/-- Witness for C6 at a concrete file system holding `cache.json`. -/
theorem migrate_backs_up_original_witness :
    ∃ fs', LegacyMigrator.migrate (.obj []) "cache.json"
        (fun p => if p = "cache.json" then some [7, 7] else none) = .ok ([], fs') ∧
      fs' "cache.json.bak" = some [7, 7] ∧
      fs' "cache.json" = some [7, 7] := by
  have h := migrate_backs_up_original (.obj []) [] "cache.json"
    (fun p => if p = "cache.json" then some [7, 7] else none) [7, 7]
    rfl (by simp) (by decide)
  have hext : withExtension "cache.json" "json.bak" = "cache.json.bak" := by decide
  rw [hext] at h
  exact h

theorem set_own (l : List α) (i : Nat) (hi : i < l.length) (a : α) (ha : l[i] = a) :
    l.set i a = l := by
  apply List.ext_getElem (by simp)
  intro n h1 h2
  by_cases hn : n = i
  · subst hn
    rw [List.getElem_set_self h1, ha]
  · rw [List.getElem_set_ne (Ne.symm hn) h1]

/-- C7: with explicit host `h` and dir `d` on the CLI, the resolver builds
exactly one entry whose name is the CLI name if given (else
`h ++ "_" ++ d` with `/` replaced by `_`) and whose `preferred` is `false`;
if the directory already holds an entry with that name it is replaced in
place (list order and length preserved), otherwise the entry is appended;
the store is saved. -/
theorem explicit_branch_spec (h d : String) (cn : Option String) (ops : List String)
    (pc : Option String) (entries : List RemoteEntry)
    (hnd : (entries.map RemoteEntry.name).Nodup) :
    (explicit_branch h d cn ops pc entries).saved = true ∧
    (explicit_branch h d cn ops pc entries).entry.name = cn.getD (default_entry_name h d) ∧
    (explicit_branch h d cn ops pc entries).entry.remote_host = h ∧
    (explicit_branch h d cn ops pc entries).entry.remote_dir = d ∧
    (explicit_branch h d cn ops pc entries).entry.override_paths = ops ∧
    (explicit_branch h d cn ops pc entries).entry.post_sync_command = pc ∧
    (explicit_branch h d cn ops pc entries).entry.preferred = false ∧
    ((explicit_branch h d cn ops pc entries).entries.map RemoteEntry.name).count
        (cn.getD (default_entry_name h d)) = 1 ∧
    ((∀ e ∈ entries, e.name ≠ cn.getD (default_entry_name h d)) →
      (explicit_branch h d cn ops pc entries).entries =
        entries ++ [(explicit_branch h d cn ops pc entries).entry]) ∧
    (∀ i (hilt : i < entries.length),
      (entries.get ⟨i, hilt⟩).name = cn.getD (default_entry_name h d) →
      (explicit_branch h d cn ops pc entries).entries =
        entries.set i (explicit_branch h d cn ops pc entries).entry) := by
  cases hidx : entries.findIdx? (fun e => e.name == (mkCliEntry h d cn ops pc).name) with
  | none =>
    have hb : explicit_branch h d cn ops pc entries =
        ⟨mkCliEntry h d cn ops pc, entries ++ [mkCliEntry h d cn ops pc], true⟩ := by
      simp only [explicit_branch]
      rw [hidx]
    have hnone : ∀ e ∈ entries, e.name ≠ cn.getD (default_entry_name h d) := by
      intro e he
      have := (List.findIdx?_eq_none_iff.mp hidx) e he
      simpa [mkCliEntry] using this
    rw [hb]
    refine ⟨rfl, rfl, rfl, rfl, rfl, rfl, rfl, ?_, fun _ => rfl, ?_⟩
    · rw [List.map_append, List.count_append]
      have h0 : (entries.map RemoteEntry.name).count (cn.getD (default_entry_name h d)) = 0 := by
        rw [List.count_eq_zero]
        intro hmem
        obtain ⟨e, he, hname⟩ := List.mem_map.mp hmem
        exact hnone e he hname
      simp [h0, List.count_cons, mkCliEntry]
    · intro i hilt hname
      exact absurd hname (hnone _ (List.get_mem entries i hilt))
  | some k =>
    have hb : explicit_branch h d cn ops pc entries =
        ⟨mkCliEntry h d cn ops pc, entries.set k (mkCliEntry h d cn ops pc), true⟩ := by
      simp only [explicit_branch]
      rw [hidx]
    obtain ⟨hk, hpk, -⟩ := List.findIdx?_eq_some_iff_getElem.mp hidx
    have hkname : entries[k].name = cn.getD (default_entry_name h d) := by
      simpa [mkCliEntry] using hpk
    rw [hb]
    refine ⟨rfl, rfl, rfl, rfl, rfl, rfl, rfl, ?_, ?_, ?_⟩
    · rw [List.map_set]
      rw [set_own (entries.map RemoteEntry.name) k (by simpa using hk)
        _ (by rw [List.getElem_map]; exact hkname)]
      exact List.count_eq_one_of_mem hnd
        (List.mem_map.mpr ⟨entries[k], List.getElem_mem hk, hkname⟩)
    · intro hno
      exact absurd hkname (hno _ (List.getElem_mem hk))
    · intro i hilt hname
      have hik : k = i := by
        have hmapk : (entries.map RemoteEntry.name).get ⟨k, by simpa using hk⟩ =
            cn.getD (default_entry_name h d) := by
          simp only [List.get_eq_getElem, List.getElem_map]
          exact hkname
        have hmapi : (entries.map RemoteEntry.name).get ⟨i, by simpa using hilt⟩ =
            cn.getD (default_entry_name h d) := by
          simp only [List.get_eq_getElem, List.getElem_map]
          simpa [List.get_eq_getElem] using hname
        have hfin := (List.Nodup.get_inj_iff hnd).mp (hmapk.trans hmapi.symm)
        simpa using hfin
      rw [hik]

/-- Witness for C7: empty directory, the synthesized name is appended. -/
theorem explicit_branch_spec_witness :
    (explicit_branch "h" "p/q" none [] none []).entries =
      [] ++ [(explicit_branch "h" "p/q" none [] none []).entry] ∧
    (explicit_branch "h" "p/q" none [] none []).entry.name = "h_p_q" ∧
    (explicit_branch "h" "p/q" none [] none []).entry.preferred = false := by
  have h := explicit_branch_spec "h" "p/q" none [] none [] (by simp)
  refine ⟨h.2.2.2.2.2.2.2.2.1 (by simp), ?_, h.2.2.2.2.2.2.1⟩
  exact h.2.1.trans (by decide)

theorem filter_length_add_count (nm : String) (l : List RemoteEntry) :
    (l.filter (fun e => e.name ≠ nm)).length + (l.map RemoteEntry.name).count nm
      = l.length := by
  induction l with
  | nil => rfl
  | cons a l ih =>
    by_cases ha : a.name = nm
    · simp only [List.filter_cons, List.map_cons, List.count_cons]
      simp [ha, ← ih]
      omega
    · simp only [List.filter_cons, List.map_cons, List.count_cons]
      simp [ha, ← ih]
      omega

theorem remove_remote_some (cache : RemoteMap) (dir nm : String)
    (es : List RemoteEntry) (hlk : cache.lookup dir = some es) :
    remove_remote cache dir nm =
      if (es.filter (fun e => e.name ≠ nm)).length = es.length then
        .error "Remote with the given name not found"
      else .ok (mapInsert cache dir (es.filter (fun e => e.name ≠ nm))) := by
  unfold remove_remote
  rw [hlk]

/-- C8: removing a name that no entry of the directory carries (in
particular when the directory has no entries) fails and leaves the persisted
file untouched, as does removing from a directory with no entry list at all;
removing a present name succeeds, shrinks that directory's list by exactly
one, leaves no entry with that name, and the saved store reloads to exactly
the shrunk store. -/
theorem remove_remote_spec (v : String) (b : Bool) (disk : FileContent)
    (cache : RemoteMap) (dir nm : String) :
    (cache.lookup dir = none →
      remove_branch v disk cache dir nm =
        (disk, .error "No remotes found for this directory")) ∧
    (∀ entries, cache.lookup dir = some entries →
      (∀ e ∈ entries, e.name ≠ nm) →
      remove_branch v disk cache dir nm =
        (disk, .error "Remote with the given name not found")) ∧
    (∀ entries, cache.lookup dir = some entries →
      (entries.map RemoteEntry.name).Nodup →
      nm ∈ entries.map RemoteEntry.name →
      ∃ m, remove_remote cache dir nm = .ok m ∧
        remove_branch v disk cache dir nm = (.json (save_cache v m), .ok m) ∧
        m.lookup dir = some (entries.filter (fun e => e.name ≠ nm)) ∧
        (entries.filter (fun e => e.name ≠ nm)).length + 1 = entries.length ∧
        (∀ e ∈ entries.filter (fun e => e.name ≠ nm), e.name ≠ nm) ∧
        read_cache v b (.json (save_cache v m)) = .ok (m, false)) := by
  refine ⟨?_, ?_, ?_⟩
  · intro h
    simp [remove_branch, remove_remote, h]
  · intro entries hlk hno
    have hfil : entries.filter (fun e => e.name ≠ nm) = entries :=
      List.filter_eq_self.mpr (fun a ha => by simpa using hno a ha)
    have hrm : remove_remote cache dir nm =
        .error "Remote with the given name not found" := by
      rw [remove_remote_some cache dir nm entries hlk, hfil, if_pos rfl]
    unfold remove_branch
    rw [hrm]
  · intro entries hlk hnd hmem
    have hcnt : (entries.map RemoteEntry.name).count nm = 1 :=
      List.count_eq_one_of_mem hnd hmem
    have hlen : (entries.filter (fun e => e.name ≠ nm)).length + 1 = entries.length := by
      have := filter_length_add_count nm entries
      omega
    have hne : ¬ ((entries.filter (fun e => e.name ≠ nm)).length = entries.length) := by
      omega
    have hrm : remove_remote cache dir nm =
        .ok (mapInsert cache dir (entries.filter (fun e => e.name ≠ nm))) := by
      rw [remove_remote_some cache dir nm entries hlk, if_neg hne]
    refine ⟨mapInsert cache dir (entries.filter (fun e => e.name ≠ nm)), hrm, ?_, ?_,
      hlen, ?_, read_save v b _⟩
    · unfold remove_branch
      rw [hrm]
    · rw [lookup_mapInsert, if_pos rfl]
    · intro e he
      have := (List.mem_filter.mp he).2
      simpa using this

/-- Witness for C8 at a concrete store: removing an absent name fails and
the persisted file is left as it was. -/
theorem remove_remote_spec_witness :
    remove_branch "0.1.0" .absent [("dir", [sampleEntry "a"])] "dir" "z" =
      (.absent, .error "Remote with the given name not found") := by
  have h := (remove_remote_spec "0.1.0" false .absent
    [("dir", [sampleEntry "a"])] "dir" "z").2.1
  exact h [sampleEntry "a"] rfl (by decide)

/-- C9: in the single-existing-entry branch, supplying only override paths
rewrites `override_paths` and leaves every other field of the entry (name,
host, dir, post-sync command, preferred flag, ignore patterns) unchanged;
the stored singleton list gets the same entry and the store is saved. -/
theorem single_entry_branch_frame (ops : List String) (pc : Option String)
    (e : RemoteEntry) (hops : ops ≠ []) (hpc : pc = none) :
    (single_entry_branch ops pc e).entry.override_paths = ops ∧
    (single_entry_branch ops pc e).entry.name = e.name ∧
    (single_entry_branch ops pc e).entry.remote_host = e.remote_host ∧
    (single_entry_branch ops pc e).entry.remote_dir = e.remote_dir ∧
    (single_entry_branch ops pc e).entry.post_sync_command = e.post_sync_command ∧
    (single_entry_branch ops pc e).entry.preferred = e.preferred ∧
    (single_entry_branch ops pc e).entry.ignore_patterns = e.ignore_patterns ∧
    (single_entry_branch ops pc e).entries = [(single_entry_branch ops pc e).entry] ∧
    (single_entry_branch ops pc e).saved = true := by
  subst hpc
  have hne : ops.isEmpty = false := by
    cases ops with
    | nil => exact absurd rfl hops
    | cons a l => rfl
  simp [single_entry_branch, hne]

/-- Witness for C9 at a concrete entry. -/
theorem single_entry_branch_frame_witness :
    (single_entry_branch ["x"] none (sampleEntry "n")).entry.override_paths = ["x"] ∧
    (single_entry_branch ["x"] none (sampleEntry "n")).entry.name = "n" ∧
    (single_entry_branch ["x"] none (sampleEntry "n")).entry.post_sync_command = none := by
  have h := single_entry_branch_frame ["x"] none (sampleEntry "n") (by decide) rfl
  exact ⟨h.1, h.2.1, h.2.2.2.2.1⟩

theorem rust_parse_usize_lt (cs : List Char) (n : Nat)
    (hp : rust_parse_usize cs = some n) : n < 2 ^ 64 := by
  simp only [rust_parse_usize] at hp
  split at hp
  · exact absurd hp (by simp)
  · split at hp
    · split at hp
      · cases hp
        assumption
      · cases hp
    · cases hp

theorem select_remote_none (entries : List RemoteEntry) (input : String)
    (hp : rust_parse_usize (trimChars input.toList) = none) :
    select_remote entries input = .error "Invalid selection" := by
  unfold select_remote
  rw [hp]

theorem select_remote_some (entries : List RemoteEntry) (input : String) (n : Nat)
    (hp : rust_parse_usize (trimChars input.toList) = some n) :
    select_remote entries input =
      if h : (n + (2 ^ 64 - 1)) % 2 ^ 64 < entries.length then
        .ok (entries.get ⟨(n + (2 ^ 64 - 1)) % 2 ^ 64, h⟩).name
      else .error "Selection out of range" := by
  unfold select_remote
  rw [hp]

/-- C10: `select_remote` on a non-empty entry list either returns the name
of the entry at the entered 1-based position (when the trimmed input parses
as a number between 1 and the list length) or returns an error; it is total
(never panics), and the input `"0"` — whose 1-based-to-0-based conversion
wraps around under `usize` semantics — is rejected with an error rather than
selecting anything. -/
theorem select_remote_safe (entries : List RemoteEntry) (input : String)
    (hlen : entries.length < 2 ^ 64) :
    ((∃ msg, select_remote entries input = .error msg) ∨
      (∃ k e, rust_parse_usize (trimChars input.toList) = some k ∧ 1 ≤ k ∧
        k ≤ entries.length ∧ entries[k - 1]? = some e ∧
        select_remote entries input = .ok e.name)) ∧
    select_remote entries "0" = .error "Selection out of range" := by
  constructor
  · cases hp : rust_parse_usize (trimChars input.toList) with
    | none => exact Or.inl ⟨"Invalid selection", select_remote_none entries input hp⟩
    | some n =>
      have hn : n < 2 ^ 64 := rust_parse_usize_lt _ _ hp
      by_cases hz : n = 0
      · subst hz
        refine Or.inl ⟨"Selection out of range", ?_⟩
        rw [select_remote_some entries input 0 hp]
        have hni : ¬ ((0 + (2 ^ 64 - 1)) % 2 ^ 64 < entries.length) := by
          rw [Nat.mod_eq_of_lt (by omega)]
          omega
        rw [dif_neg hni]
      · have hidx : (n + (2 ^ 64 - 1)) % 2 ^ 64 = n - 1 := by
          have h1 : n + (2 ^ 64 - 1) = (n - 1) + 2 ^ 64 := by omega
          rw [h1, Nat.add_mod_right, Nat.mod_eq_of_lt (by omega)]
        by_cases hlt : n - 1 < entries.length
        · refine Or.inr ⟨n, entries[n - 1], rfl, by omega, by omega,
            List.getElem?_eq_getElem hlt, ?_⟩
          rw [select_remote_some entries input n hp]
          simp only [hidx]
          rw [dif_pos hlt]
          simp [List.get_eq_getElem]
        · refine Or.inl ⟨"Selection out of range", ?_⟩
          rw [select_remote_some entries input n hp]
          simp only [hidx]
          rw [dif_neg hlt]
  · have hp0 : rust_parse_usize (trimChars ("0" : String).toList) = some 0 := rfl
    rw [select_remote_some entries "0" 0 hp0]
    have hni : ¬ ((0 + (2 ^ 64 - 1)) % 2 ^ 64 < entries.length) := by
      rw [Nat.mod_eq_of_lt (by omega)]
      omega
    rw [dif_neg hni]

/-- Witness for C10 at a concrete two-entry list. -/
theorem select_remote_safe_witness :
    select_remote [sampleEntry "x", sampleEntry "y"] "0" =
      .error "Selection out of range" :=
  (select_remote_safe [sampleEntry "x", sampleEntry "y"] "0" (by norm_num)).2

end SyncRs
